import Mathlib

/-!
Verification of the pyawk-ai repository (a Python AWK interpreter with AI
helper functions) against its natural-language specification.

The repository ships two interpreter variants:
* `pyawk_ai_fixed.py`    — embedded below in namespace `Fixed`;
* `pyawk_ai_enhanced.py` — embedded below in namespace `Enhanced`.

Python strings are modelled as `List Char` (ASCII-faithful: the Python
functions used by the sources — `str.strip`, `str.lower`, `str.split`,
slicing, `re` with the literal patterns exercised here — are modelled on
ASCII data, which is all the claims use).  Regular-expression primitives
(`re.sub`, `re.search`, `re.split`) are modelled for the pattern classes
the claims exercise: literal patterns (no metacharacters) and, for
`re.split`, single-character `c+` patterns; `reSplitModel` returns `none`
on patterns outside the modelled classes instead of guessing.
-/

namespace PyAwk

/-- Python strings modelled as lists of characters. -/
abbrev PyStr := List Char

/-- The characters Python's `str.strip()` / `\s` treat as whitespace (ASCII part). -/
def isPySpace (c : Char) : Bool :=
  c == ' ' || c == '\t' || c == '\n' || c == '\x0b' || c == '\x0c' || c == '\r'

/-- Python `str.lower()` (ASCII part, which is all the claims exercise). -/
def pyLower (s : PyStr) : PyStr := s.map Char.toLower

/-- Python `str.lstrip()`. -/
def pyLstrip (s : PyStr) : PyStr := s.dropWhile isPySpace

/-- Python `str.strip()`: drop whitespace from both ends. -/
def pyStrip (s : PyStr) : PyStr :=
  ((s.dropWhile isPySpace).reverse.dropWhile isPySpace).reverse

/-- Python `str.rstrip('\n')`: drop trailing newline characters. -/
def pyRstripNl (s : PyStr) : PyStr :=
  (s.reverse.dropWhile (· == '\n')).reverse

/-- Python `str.rstrip('\n\r')` as used by the enhanced record loop. -/
def pyRstripNlCr (s : PyStr) : PyStr :=
  (s.reverse.dropWhile (fun c => c == '\n' || c == '\r')).reverse

/-- Split at every character satisfying `p`, keeping empty pieces. -/
def splitPGo (p : Char → Bool) : PyStr → List PyStr
  | [] => [[]]
  | c :: rest =>
    if p c then [] :: splitPGo p rest
    else
      match splitPGo p rest with
      | [] => [[c]]
      | q :: qs => (c :: q) :: qs

/-- Python `str.split()` with no argument: split on runs of whitespace,
leading/trailing whitespace ignored (empty pieces dropped). -/
def splitWs (s : PyStr) : List PyStr :=
  (splitPGo isPySpace s).filter (fun x => !x.isEmpty)

/-- Fuel-driven worker for splitting on a literal (nonempty) separator,
keeping empty pieces, like Python `str.split(sep)`.  The fuel is only a
termination device; `splitOnSub` supplies enough for it never to run out. -/
def splitGoF (sep : PyStr) : Nat → PyStr → List PyStr
  | 0, l => [l]
  | _ + 1, [] => [[]]
  | n + 1, c :: rest =>
    if !sep.isEmpty && sep.isPrefixOf (c :: rest) then
      [] :: splitGoF sep n ((c :: rest).drop sep.length)
    else
      match splitGoF sep n rest with
      | [] => [[c]]
      | q :: qs => (c :: q) :: qs

/-- Python `str.split(sep)` for a literal separator (also the behaviour of
`re.split(pat, s)` when `pat` has no metacharacters).  Python raises on an
empty separator; the sources never reach that case, and we return `[l]`. -/
def splitOnSub (sep l : PyStr) : List PyStr :=
  if sep.isEmpty then [l] else splitGoF sep (l.length + 1) l

/-- Fuel-driven worker for literal, non-overlapping, leftmost replacement;
returns the rewritten string and the number of replacements. -/
def subnGoF (pat repl : PyStr) : Nat → PyStr → PyStr × Nat
  | 0, l => (l, 0)
  | _ + 1, [] => ([], 0)
  | n + 1, c :: rest =>
    if !pat.isEmpty && pat.isPrefixOf (c :: rest) then
      let p := subnGoF pat repl n ((c :: rest).drop pat.length)
      (repl ++ p.1, p.2 + 1)
    else
      let p := subnGoF pat repl n rest
      (c :: p.1, p.2)

/-- Python `re.subn(pat, repl, s)` for a literal pattern `pat` and a
backreference-free replacement (the only combinations the claims use);
for an empty pattern Python inserts `repl` at every position. -/
def subnLit (pat repl s : PyStr) : PyStr × Nat :=
  if pat.isEmpty then (repl ++ s.flatMap (fun c => c :: repl), s.length + 1)
  else subnGoF pat repl (s.length + 1) s

/-- Python `str.replace(old, new)` (all occurrences). -/
def pyReplace (s old new : PyStr) : PyStr := (subnLit old new s).1

/-- Leftmost index at which `pat` occurs in `l` (Python `str.find` / the
start of the leftmost `re.search` match of a literal pattern). -/
def findSub (pat : PyStr) : PyStr → Option Nat
  | [] => if pat.isPrefixOf [] then some 0 else none
  | c :: rest =>
    if pat.isPrefixOf (c :: rest) then some 0
    else (findSub pat rest).map (· + 1)

/-- Python `pat in s` (substring containment). -/
def containsSub (pat l : PyStr) : Bool := (findSub pat l).isSome

/-- Index of the last occurrence of character `c` (Python `str.rfind`),
`none` when absent. -/
def rfindIdx (c : Char) (l : PyStr) : Option Nat :=
  (findSub [c] l.reverse).map (fun j => l.length - 1 - j)

/-- Python slice `l[i:j]` with `i ≥ 0` and `j` possibly negative
(a negative `j` counts from the end, clamped at 0). -/
def pySliceIJ (l : PyStr) (i : Nat) (j : Int) : PyStr :=
  let jn : Nat := if j < 0 then ((l.length : Int) + j).toNat else j.toNat
  (l.take jn).drop i

/-- A Python value as returned by the built-in AWK functions: either a
string or a number.  Used to record that `Fixed.gsub` returns a string on
one branch and the integer `0` on the other. -/
inductive PyVal where
  | str : PyStr → PyVal
  | num : Int → PyVal
deriving DecidableEq, Repr

/-- `class AwkVariables` of `pyawk_ai_fixed.py` (the enhanced variant's
`AwkVariables` has the same fields minus `IGNORECASE`/`ARGC`/`ARGV`, with
the same initial values). -/
structure AwkVars where
  NR : Int
  NF : Int
  FNR : Int
  FS : PyStr
  OFS : PyStr
  ORS : PyStr
  RS : PyStr
  FILENAME : PyStr
  RSTART : Int
  RLENGTH : Int
  SUBSEP : PyStr
  IGNORECASE : Int
deriving DecidableEq, Repr

/-- The initial values assigned by `AwkVariables.__init__` (note that
`RSTART` and `RLENGTH` are both initialised to `0`). -/
def initVars : AwkVars :=
  { NR := 0, NF := 0, FNR := 0, FS := [' '], OFS := [' '], ORS := ['\n'],
    RS := ['\n'], FILENAME := [], RSTART := 0, RLENGTH := 0,
    SUBSEP := ['\x1c'], IGNORECASE := 0 }

/-- `AwkFunctions.match` (identical in both variants):
`re.search(regex, str(string))`, returning `m.start() + 1` on a match and
`0` otherwise.  The regex is modelled for literal patterns, the only kind
the claims exercise. -/
def matchFn (string regex : PyStr) : Nat :=
  match findSub regex string with
  | some i => i + 1
  | none => 0

/-- `AwkFunctions.match` together with the interpreter's variable record:
the method is a `@staticmethod` with no access to `AwkVariables`, so the
variables are returned unchanged.  Neither source file ever writes
`RSTART` or `RLENGTH` after `__init__`. -/
def matchWithEnv (v : AwkVars) (string regex : PyStr) : Nat × AwkVars :=
  (matchFn string regex, v)

end PyAwk

namespace PyAwk.Fixed

/-- `AwkFunctions.substr` of `pyawk_ai_fixed.py`:
`start = max(1, int(start))`; empty result if `start > len(s)`; a missing
`length` takes the suffix; `length <= 0` gives the empty string; otherwise
`s[start_idx : start_idx + length]`. -/
def substr (s : PyStr) (start : Int) (length : Option Int) : PyStr :=
  let start := max 1 start
  if start > (s.length : Int) then []
  else
    let si := (start - 1).toNat
    match length with
    | none => s.drop si
    | some L => if L ≤ 0 then [] else (s.drop si).take L.toNat

/-- `AwkFunctions.gsub` of `pyawk_ai_fixed.py`: with no target it returns
the integer `0`; with a target it returns `re.sub(regex, replacement,
str(target))` — the *replaced string*, not a substitution count, and no
lvalue is mutated.  Regex modelled for literal patterns. -/
def gsub (regex replacement : PyStr) (target : Option PyStr) : PyVal :=
  match target with
  | none => .num 0
  | some t => .str (subnLit regex replacement t).1

/-- The local fallback `SimulatedAIProvider.call_api` of
`pyawk_ai_fixed.py`: `f"[Simulated: {prompt[:30]}...]"`.  (The `from
ai_providers import ... SimulatedAIProvider` at the top of the file raises
`ImportError` — `ai_providers.py` defines `SimulatedProvider`, not
`SimulatedAIProvider` — so this local stub is the one actually in use.) -/
def simStub (prompt : PyStr) : PyStr :=
  ("[Simulated: ").toList ++ prompt.take 30 ++ ("...]").toList

/-- `AwkFunctions.ai_call` of `pyawk_ai_fixed.py`.  The provider is
modelled as `Option (Except Unit (Option PyStr))`: `none` when
`get_ai_provider()` returns `None`, `some (.error _)` when `call_api`
raises (caught by the `except Exception: pass`), `some (.ok none)` /
`some (.ok (some s))` for a `None` / string response.  A falsy response
(`None` or the empty string) falls through to the simulated provider. -/
def ai_call (provider : Option (Except Unit (Option PyStr))) (prompt : PyStr) : PyStr :=
  match provider with
  | some (.ok (some response)) => if response.isEmpty then simStub prompt else response
  | some (.ok none) => simStub prompt
  | some (.error _) => simStub prompt
  | none => simStub prompt

/-- The prompt built by `AwkFunctions.ai_sentiment` of `pyawk_ai_fixed.py`. -/
def sentimentPrompt (text : PyStr) : PyStr :=
  ("Analyze sentiment: positive, negative, or neutral?").toList ++
    ['\n', '\n'] ++ ("Text: ").toList ++ text

/-- The decision logic of `AwkFunctions.ai_sentiment` of
`pyawk_ai_fixed.py` applied to the string `ai_call` returned:
`response.lower().strip()`, then an if/elif chain on substring
containment of `'positive'` and `'negative'`, else `'neutral'`. -/
def sentimentDecision (response : PyStr) : PyStr :=
  let response_lower := pyStrip (pyLower response)
  if containsSub (("positive").toList) response_lower then ("positive").toList
  else if containsSub (("negative").toList) response_lower then ("negative").toList
  else ("neutral").toList

/-- `AwkFunctions.ai_sentiment` of `pyawk_ai_fixed.py`. -/
def ai_sentiment (provider : Option (Except Unit (Option PyStr))) (text : PyStr) : PyStr :=
  sentimentDecision (ai_call provider (sentimentPrompt text))

end PyAwk.Fixed

namespace PyAwk.Enhanced

open PyAwk

/-- `AwkFunctions.substr` of `pyawk_ai_enhanced.py`:
`start = int(start) - 1`, clamped below at 0; a missing `length` takes the
suffix; otherwise the Python slice `s[start : start + length]` — whose
stop index may be negative and then counts from the end of the string. -/
def substr (s : PyStr) (start : Int) (length : Option Int) : PyStr :=
  let st : Int := start - 1
  let st : Nat := if st < 0 then 0 else st.toNat
  match length with
  | none => s.drop st
  | some L => pySliceIJ s st ((st : Int) + L)

/-- `AwkFunctions.gsub` of `pyawk_ai_enhanced.py`:
`result, count = re.subn(pattern, replacement, str(target))`; the replaced
string is discarded and the substitution *count* is returned; no lvalue is
mutated.  Regex modelled for literal patterns. -/
def gsub (pattern replacement target : PyStr) : Nat :=
  (subnLit pattern replacement target).2

/-- `AwkFunctions.ai_call` of `pyawk_ai_enhanced.py`.  In this repository
`ai_providers.py` imports successfully, so `AI_AVAILABLE` is `True`; the
provider is modelled as in `Fixed.ai_call` (the whole `get_ai_provider` /
`call_api` attempt sits inside a `try`), and `sim` is the
`ai_providers.SimulatedProvider.call_api` fallback, kept as a parameter.
Note the asymmetry with the fixed variant: a response that is not `None`
is returned verbatim, *including the empty string*. -/
def ai_call (provider : Option (Except Unit (Option PyStr)))
    (sim : PyStr → PyStr) (prompt : PyStr) : PyStr :=
  match provider with
  | some (.ok (some response)) => response
  | some (.ok none) => sim prompt
  | some (.error _) => sim prompt
  | none => sim prompt

/-- The prompt built by `AwkFunctions.ai_sentiment` of `pyawk_ai_enhanced.py`. -/
def sentimentPrompt (text : PyStr) : PyStr :=
  ("Analyze the sentiment of this text and respond with just one word: positive, negative, or neutral. Text: ").toList
    ++ text

/-- `AwkFunctions.ai_sentiment` of `pyawk_ai_enhanced.py`:
`ai_call(prompt, 50).lower()` — no normalisation to a fixed word set. -/
def ai_sentiment (provider : Option (Except Unit (Option PyStr)))
    (sim : PyStr → PyStr) (text : PyStr) : PyStr :=
  pyLower (ai_call provider sim (sentimentPrompt text))

end PyAwk.Enhanced

namespace PyAwk

/-- The regex metacharacters of Python `re` (a pattern avoiding all of
them matches only itself, literally). -/
def reMeta : List Char :=
  ['\\', '.', '^', '$', '*', '+', '?', '\x7b', '\x7d', '[', ']', '(', ')', '|']

/-- `true` when the pattern contains no regex metacharacter, so that the
`re` functions treat it as a literal string. -/
def isLiteralPat (pat : PyStr) : Bool := pat.all (fun c => !reMeta.contains c)

/-- Split on maximal nonempty runs of the character `c` — the behaviour of
`re.split("c+", s)` (fuel-driven worker). -/
def runSplitF (c : Char) : Nat → PyStr → List PyStr
  | 0, l => [l]
  | _ + 1, [] => [[]]
  | n + 1, x :: rest =>
    if x == c then [] :: runSplitF c n (rest.dropWhile (· == c))
    else
      match runSplitF c n rest with
      | [] => [[x]]
      | q :: qs => (x :: q) :: qs

/-- Model of Python `re.split(pat, s)`, defined on the pattern classes the
repository's claims exercise: a pattern without metacharacters splits on
literal occurrences (like `str.split`), and a single-character-plus
pattern `c+` splits on maximal runs of `c`.  Other patterns are outside
the model and give `none` rather than a guessed behaviour. -/
def reSplitModel (pat s : PyStr) : Option (List PyStr) :=
  if isLiteralPat pat then some (splitOnSub pat s)
  else
    match pat with
    | [c, '+'] => if !reMeta.contains c then some (runSplitF c (s.length + 1) s) else none
    | _ => none

end PyAwk

namespace PyAwk.Fixed

open PyAwk

/-- The parts of `AwkProcessor` state (`pyawk_ai_fixed.py`) that the field
operations read and write: the built-in variables, the field list
(`self.fields`, with the placeholder `""` at index 0), and
`self.current_line`. -/
structure St where
  vars : AwkVars
  fields : List PyStr
  current_line : PyStr
deriving DecidableEq, Repr

/-- `AwkProcessor.split_fields` of `pyawk_ai_fixed.py`.  Note the third
branch: `line.rstrip('\n').split(self.vars.FS)` — Python's *literal*
`str.split`, not a regex split. -/
def split_fields (st : St) (line : PyStr) : St :=
  let fields :=
    if st.vars.FS = [' '] then [] :: splitWs (pyStrip line)
    else if st.vars.FS = [] then [] :: line.map (fun c => [c])
    else [] :: splitOnSub st.vars.FS (pyRstripNl line)
  { st with fields := fields,
            vars := { st.vars with NF := (fields.length : Int) - 1 } }

/-- `AwkProcessor.get_field` of `pyawk_ai_fixed.py`: field 0 is
`self.current_line.rstrip('\n')`; fields `1 ≤ n ≤ len(fields) - 1` index
`self.fields`; anything else reads as `""`. -/
def get_field (st : St) (n : Int) : PyStr :=
  if n = 0 then pyRstripNl st.current_line
  else if 1 ≤ n ∧ n ≤ (st.fields.length : Int) - 1 then st.fields.getD n.toNat []
  else []

/-- The `while len(self.fields) <= n: self.fields.append("")` loop. -/
def padFields (fields : List PyStr) (n : Nat) : List PyStr :=
  if fields.length ≤ n then fields ++ List.replicate (n + 1 - fields.length) [] else fields

/-- `AwkProcessor.set_field` of `pyawk_ai_fixed.py` for a field index
`n ≥ 1` (the `n = 0` branch is `set_field_zero` below): pad, assign,
update `NF`, and rebuild `self.current_line` as
`self.vars.OFS.join(self.fields[1:]) + '\n'`. -/
def set_field (st : St) (n : Nat) (value : PyStr) : St :=
  let fields := (padFields st.fields n).set n value
  { st with fields := fields,
            vars := { st.vars with NF := (fields.length : Int) - 1 },
            current_line := List.intercalate st.vars.OFS (fields.drop 1) ++ ['\n'] }

/-- The `n == 0` branch of `AwkProcessor.set_field`:
`self.current_line = str(value) + '\n'` followed by a re-split. -/
def set_field_zero (st : St) (value : PyStr) : St :=
  let cl := value ++ ['\n']
  split_fields { st with current_line := cl } cl

end PyAwk.Fixed

namespace PyAwk.Enhanced

open PyAwk

/-- The parts of `AwkProcessor` state (`pyawk_ai_enhanced.py`) that the
field operations touch: the variables and `self.fields` (where
`fields[0]` is the whole record). -/
structure St where
  vars : AwkVars
  fields : List PyStr
deriving DecidableEq, Repr

/-- `AwkProcessor.split_record` of `pyawk_ai_enhanced.py`.  The third
branch is `re.split(self.vars.FS, record)` — a *regex* split — modelled
by `reSplitModel`, hence the `Option` result for patterns outside the
modelled classes. -/
def split_record (st : St) (record : PyStr) : Option St :=
  let fields? :=
    if st.vars.FS = [' '] then some (splitWs (pyStrip record))
    else if st.vars.FS = [] then some (record.map (fun c => [c]))
    else reSplitModel st.vars.FS record
  fields?.map fun fields =>
    { st with fields := record :: fields,
              vars := { st.vars with NF := (fields.length : Int) } }

/-- `AwkProcessor.get_field` of `pyawk_ai_enhanced.py`. -/
def get_field (st : St) (n : Int) : PyStr :=
  if n = 0 then st.fields.headD []
  else if 1 ≤ n ∧ n < (st.fields.length : Int) then st.fields.getD n.toNat []
  else []

/-- `AwkProcessor.set_field` of `pyawk_ai_enhanced.py`: pad, assign, and —
only for `n > 0` — rebuild `fields[0]` as `self.vars.OFS.join(
self.fields[1:])` and set `NF = len(self.fields) - 1`. -/
def set_field (st : St) (n : Nat) (value : PyStr) : St :=
  let fields := (Fixed.padFields st.fields n).set n value
  if n > 0 then
    let fields := fields.set 0 (List.intercalate st.vars.OFS (fields.drop 1))
    { st with fields := fields,
              vars := { st.vars with NF := (fields.length : Int) - 1 } }
  else { st with fields := fields }

end PyAwk.Enhanced

namespace PyAwk

/-- The phase of the run in which a rule's action is executed. -/
inductive Phase where
  | beginP
  | mainP
  | endP
deriving DecidableEq, Repr

/-- The condition string `"BEGIN"`. -/
def BEGINkw : PyStr := ("BEGIN").toList

/-- The condition string `"END"`. -/
def ENDkw : PyStr := ("END").toList

/-- A rule of `pyawk_ai_fixed.py`: a `(condition, action)` pair of strings. -/
abbrev Rule := PyStr × PyStr

/-- An execution event: which phase ran which action. -/
abbrev Ev := Phase × PyStr

/-- The first loop of `AwkProcessor.process_file` (`pyawk_ai_fixed.py`
lines 565-567): every rule whose condition is `"BEGIN"` has its action
executed, in rule order. -/
def beginPhase : List Rule → List Ev
  | [] => []
  | (c, a) :: rs =>
    (if c = BEGINkw then [(Phase.beginP, a)] else []) ++ beginPhase rs

/-- The final loop of `AwkProcessor.process_file` (lines 603-605): every
rule whose condition is `"END"` has its action executed, in rule order. -/
def endPhase : List Rule → List Ev
  | [] => []
  | (c, a) :: rs =>
    (if c = ENDkw then [(Phase.endP, a)] else []) ++ endPhase rs

/-- The per-record rule loop of `AwkProcessor.process_file` (lines
587-590): each rule whose condition is neither `"BEGIN"` nor `"END"` and
whose condition evaluates truthy has its action executed.  Condition
evaluation mutates and reads interpreter state; for the scheduling claims
it is abstracted as a function `ec` of the record and the condition. -/
def recordPhase (ec : PyStr → PyStr → Bool) (line : PyStr) : List Rule → List Ev
  | [] => []
  | (c, a) :: rs =>
    (if c ≠ BEGINkw ∧ c ≠ ENDkw ∧ ec line c then [(Phase.mainP, a)] else []) ++
      recordPhase ec line rs

/-- The record loop of `process_file` over the lines of one input file. -/
def mainPhase (ec : PyStr → PyStr → Bool) (lines : List PyStr) (rules : List Rule) : List Ev :=
  lines.flatMap (fun ln => recordPhase ec ln rules)

/-- `AwkProcessor.process_file` of `pyawk_ai_fixed.py` as a trace of
action executions: the BEGIN loop, then the per-record loop, then the END
loop — all inside the *per-file* method. -/
def processFileTrace (ec : PyStr → PyStr → Bool) (rules : List Rule)
    (lines : List PyStr) : List Ev :=
  beginPhase rules ++ mainPhase ec lines rules ++ endPhase rules

/-- The `for filename in args.files: processor.process_file(filename,
rules)` loop of `main` (`pyawk_ai_fixed.py` lines 705-706): the whole of
`process_file` — BEGIN and END loops included — runs once per input
file. -/
def runFilesTrace (ec : PyStr → PyStr → Bool) (rules : List Rule)
    (files : List (List PyStr)) : List Ev :=
  files.flatMap (fun lines => processFileTrace ec rules lines)

/-- `\w` of Python `re` (ASCII part): letters, digits, underscore. -/
def isWordChar (c : Char) : Bool := c.isAlphanum || c == '_'

end PyAwk

namespace PyAwk.Fixed

open PyAwk

/-- `re.sub(r'\$(\d+)', r'field(\1)', line)`: each `$` followed by a
maximal nonempty digit run becomes `field(digits)`. -/
def subDollarNum (fuel : Nat) (l : PyStr) : PyStr :=
  match fuel, l with
  | 0, l => l
  | _ + 1, [] => []
  | n + 1, c :: rest =>
    if c == '$' then
      let ds := rest.takeWhile Char.isDigit
      if ds.isEmpty then '$' :: subDollarNum n rest
      else ("field(").toList ++ ds ++ [')'] ++ subDollarNum n (rest.drop ds.length)
    else c :: subDollarNum n rest

/-- `re.sub(r'\$\(([^)]+)\)', r'field(\1)', line)`: each `$( ... )` with a
nonempty parenthesis-free body becomes `field(body)`. -/
def subDollarParen (fuel : Nat) (l : PyStr) : PyStr :=
  match fuel, l with
  | 0, l => l
  | _ + 1, [] => []
  | n + 1, c :: rest =>
    if c == '$' then
      match rest with
      | '(' :: inner =>
        let g := inner.takeWhile (· != ')')
        if !g.isEmpty && (inner.drop g.length).headD ' ' == ')' then
          ("field(").toList ++ g ++ [')'] ++ subDollarParen n (inner.drop (g.length + 1))
        else '$' :: subDollarParen n rest
      | _ => '$' :: subDollarParen n rest
    else c :: subDollarParen n rest

/-- `re.sub(r'(\w+)\+\+', r'\1 += 1', line)` and its `--` analogue: a
maximal word run immediately followed by the doubled operator becomes
`word op= 1` (a match cannot start inside a word run, so scanning run by
run is equivalent to the regex engine's behaviour). -/
def subDoubledOp (op : Char) (fuel : Nat) (l : PyStr) : PyStr :=
  match fuel, l with
  | 0, l => l
  | _ + 1, [] => []
  | n + 1, c :: rest =>
    if isWordChar c then
      let w := c :: rest.takeWhile isWordChar
      let r := rest.drop (rest.takeWhile isWordChar).length
      if [op, op].isPrefixOf r then
        w ++ [' ', op, '=', ' ', '1'] ++ subDoubledOp op n (r.drop 2)
      else w ++ subDoubledOp op n r
    else c :: subDoubledOp op n rest

/-- `re.match(r'for\s*\(([^;]+);([^;]+);([^)]+)\)\s*{?(.*)}?', line)` of
`simple_parse_awk`, returning the statements it appends on a match
(`init`, the `# for loop` comment line, and — when the body is nonempty —
the indented body and increment).  The character-class groups make the
regex deterministic: group 1/2 run to the next `;`, group 3 to the next
`)`, the greedy `(.*)` takes the rest, the trailing `}?` matches empty. -/
def forMatch (line : PyStr) : Option (List PyStr) :=
  if ("for").toList.isPrefixOf line then
    let r := (line.drop 3).dropWhile isPySpace
    match r with
    | '(' :: r1 =>
      let g1 := r1.takeWhile (· != ';')
      let r2 := r1.drop g1.length
      if g1.isEmpty ∨ r2.headD ' ' ≠ ';' then none
      else
        let r3 := r2.drop 1
        let g2 := r3.takeWhile (· != ';')
        let r4 := r3.drop g2.length
        if g2.isEmpty ∨ r4.headD ' ' ≠ ';' then none
        else
          let r5 := r4.drop 1
          let g3 := r5.takeWhile (· != ')')
          let r6 := r5.drop g3.length
          if g3.isEmpty ∨ r6.headD ' ' ≠ ')' then none
          else
            let r7 := (r6.drop 1).dropWhile isPySpace
            let g4 := if r7.headD ' ' == '\x7b' then r7.drop 1 else r7
            let body := pyStrip g4
            some ([pyStrip g1, ("# for loop: while ").toList ++ pyStrip g2] ++
              (if body.isEmpty then []
               else [[' ', ' '] ++ body, [' ', ' '] ++ pyStrip g3]))
    | _ => none
  else none

/-- The per-line transformation loop of `AwkProcessor.simple_parse_awk`
(`pyawk_ai_fixed.py` lines 458-506).  A line starting with `function `
makes the whole function return `""`, modelled by `none`. -/
def parseLines : List PyStr → Option (List PyStr)
  | [] => some []
  | l :: rest =>
    let line := pyStrip l
    if line.isEmpty || line.headD ' ' == '#' then parseLines rest
    else if ("function ").toList.isPrefixOf line then none
    else
      let line := subDollarNum (line.length + 1) line
      let line := subDollarParen (line.length + 1) line
      let line :=
        if ("print").toList.isPrefixOf line ∧ isPySpace ((line.drop 5).headD 'x') then
          ("print(").toList ++ pyStrip (line.drop 5) ++ [')']
        else if line = ("print").toList then ("print(field(0))").toList
        else line
      match forMatch line with
      | some stmts => (parseLines rest).map (stmts ++ ·)
      | none =>
        let line := subDoubledOp '+' (line.length + 1) line
        let line := subDoubledOp '-' (line.length + 1) line
        if line = BEGINkw ∨ line = ENDkw then parseLines rest
        else (parseLines rest).map (line :: ·)

/-- `AwkProcessor.simple_parse_awk` of `pyawk_ai_fixed.py`: split into
lines, transform each, join the surviving statements with newlines. -/
def simple_parse_awk (code : PyStr) : PyStr :=
  if code.isEmpty then []
  else
    match parseLines (splitOnSub ['\n'] code) with
    | none => []
    | some stmts => List.intercalate ['\n'] stmts

/-- The body of the `try` block of `AwkProcessor.evaluate_condition`
(`pyawk_ai_fixed.py` lines 523-556).  The two effectful primitives the
body calls are parameters: `search ic pat line` models
`re.search(pat, line)` (with the IGNORECASE flag), `evalPy code` models
`bool(eval(code, ...))`; either may raise, modelled by `.error`. -/
def evalCondBody (search : Bool → PyStr → PyStr → Except PyStr Bool)
    (evalPy : PyStr → Except PyStr Bool) (st : St) (condition : PyStr) :
    Except PyStr Bool :=
  if condition = BEGINkw then .ok (decide (st.vars.NR = 0))
  else if condition = ENDkw then .ok false
  else if condition.headD ' ' == '/' ∧ condition.getLastD ' ' == '/' then
    search (st.vars.IGNORECASE ≠ 0) ((condition.drop 1).dropLast) st.current_line
  else if ("function ").toList.isPrefixOf condition then .ok false
  else
    let parsed := simple_parse_awk condition
    if parsed.isEmpty then .ok false else evalPy parsed

/-- The error message printed to stderr by the `except` clause of
`evaluate_condition` (modelled without the surrounding quote characters). -/
def condErrMsg (condition e : PyStr) : PyStr :=
  ("Error evaluating condition ").toList ++ condition.take 50 ++ ("...: ").toList ++ e

/-- `AwkProcessor.evaluate_condition` of `pyawk_ai_fixed.py`: an empty
condition is `True`; otherwise the `try` body runs and *any* exception is
caught, reported to the error stream (the second component), and turned
into `False`. -/
def evaluate_condition (search : Bool → PyStr → PyStr → Except PyStr Bool)
    (evalPy : PyStr → Except PyStr Bool) (st : St) (condition : PyStr) :
    Bool × Option PyStr :=
  if condition.isEmpty then (true, none)
  else
    match evalCondBody search evalPy st condition with
    | .ok b => (b, none)
    | .error e => (false, some (condErrMsg condition e))

end PyAwk.Fixed

namespace PyAwk

/-- One attempt of the regex `KW\s*\x7b([^\x7d]*)\x7d` at the head of `l`
(`KW` is `BEGIN` or `END`): the keyword, optional whitespace, an opening
brace, then the capture group runs to the *first* closing brace.  Returns
the matched length and the captured group. -/
def tryKwAt (kw l : PyStr) : Option (Nat × PyStr) :=
  if kw.isPrefixOf l then
    let r1 := l.drop kw.length
    let ws := r1.takeWhile isPySpace
    let r2 := r1.drop ws.length
    if r2.headD ' ' == '\x7b' then
      let g := (r2.drop 1).takeWhile (· != '\x7d')
      if ((r2.drop 1).drop g.length).headD ' ' == '\x7d' then
        some (kw.length + ws.length + 1 + g.length + 1, g)
      else none
    else none
  else none

/-- Worker for `searchKwBlock`: try the pattern at every start position in
order, like `re.search`. -/
def searchKwGo (kw : PyStr) : PyStr → Nat → Option (Nat × Nat × PyStr)
  | [], _ => none
  | c :: rest, i =>
    match tryKwAt kw (c :: rest) with
    | some (len, g) => some (i, i + len, g)
    | none => searchKwGo kw rest (i + 1)

/-- `re.search(r'KW\s*\x7b([^\x7d]*)\x7d', program, re.DOTALL)`: the
leftmost match, as `(start, end, group 1)`.  (`DOTALL` is irrelevant: the
pattern has no `.`, and both `\s` and the negated class already accept
newlines.) -/
def searchKwBlock (kw program : PyStr) : Option (Nat × Nat × PyStr) :=
  searchKwGo kw program 0

/-- Python slice `program[s:e]` with `0 ≤ s ≤ e`. -/
def sliceSE (l : PyStr) (s e : Nat) : PyStr := (l.take e).drop s

/-- `AwkProcessor`-independent program parser `parse_awk_program` of
`pyawk_ai_fixed.py`: the BEGIN and END blocks are extracted with the
naive `[^\x7d]*` regexes (each capture stops at the *first* closing
brace) and removed with `str.replace`; the remainder is split at its
first `\x7b` and last `\x7d`. -/
def Fixed.parse_awk_program (program : PyStr) : List Rule :=
  if program.isEmpty then []
  else
    let st1 :=
      match searchKwBlock BEGINkw program with
      | some (s, e, g) =>
        ([(BEGINkw, pyStrip g)], pyReplace program (sliceSE program s e) [])
      | none => ([], program)
    let st2 :=
      match searchKwBlock ENDkw st1.2 with
      | some (s, e, g) =>
        (st1.1 ++ [(ENDkw, pyStrip g)], pyReplace st1.2 (sliceSE st1.2 s e) [])
      | none => st1
    let remaining := pyStrip st2.2
    let tailRules :=
      if remaining.isEmpty then []
      else if remaining.headD ' ' == '\x7b' ∧ remaining.getLastD ' ' == '\x7d' then
        [(([] : PyStr), pyStrip ((remaining.drop 1).dropLast))]
      else if remaining.contains '\x7b' ∧ remaining.contains '\x7d' then
        let pat := remaining.takeWhile (· != '\x7b')
        let actionPart := remaining.drop (pat.length + 1)
        if actionPart.contains '\x7d' then
          match rfindIdx '\x7d' actionPart with
          | some i => [(pyStrip pat, pyStrip (actionPart.take i))]
          | none => []
        else []
      else [(remaining, ([] : PyStr))]
    st2.1 ++ tailRules

/-- A rule of `pyawk_ai_enhanced.py`: the pattern is `None` for a bare
action, the string `"BEGIN"`/`"END"` for those blocks, a pattern string
otherwise. -/
abbrev ERule := Option PyStr × PyStr

/-- `re.finditer(r'KW\s*\x7b([^\x7d]*)\x7d', program)`: the capture
groups of all non-overlapping leftmost matches (fuel-driven; the fuel is
a termination device only). -/
def finditerKw (kw : PyStr) : Nat → PyStr → List PyStr
  | 0, _ => []
  | n + 1, p =>
    match searchKwBlock kw p with
    | some (_, e, g) => g :: finditerKw kw n (p.drop e)
    | none => []

/-- `re.sub(r'KW\s*\x7b([^\x7d]*)\x7d', '', program)`: delete all
non-overlapping leftmost matches. -/
def removeKw (kw : PyStr) : Nat → PyStr → PyStr
  | 0, p => p
  | n + 1, p =>
    match searchKwBlock kw p with
    | some (s, e, _) => p.take s ++ removeKw kw n (p.drop e)
    | none => p

/-- Python `str.rsplit(c, 1)[0]`: everything before the last occurrence
of `c`, or the whole string when `c` is absent. -/
def rsplitBeforeLast (c : Char) (s : PyStr) : PyStr :=
  match rfindIdx c s with
  | some i => s.take i
  | none => s

/-- The line-accumulation loop of the enhanced `parse_awk_program`
(`pyawk_ai_enhanced.py` lines 496-523): lines are appended to
`current_rule` while a running brace count is nonzero; a completed rule is
split at its first `\x7b` and last `\x7d`.  A leftover incomplete
`current_rule` at the end of input is dropped, as in the source. -/
def Enhanced.lineLoop : List PyStr → PyStr → Int → List ERule
  | [], _, _ => []
  | l :: rest, current, bc =>
    let line := pyStrip l
    if line.isEmpty || line.headD ' ' == '#' then Enhanced.lineLoop rest current bc
    else
      let current := current ++ line ++ [' ']
      let bc := bc + (line.count '\x7b' : Int) - (line.count '\x7d' : Int)
      if bc = 0 ∧ ¬(pyStrip current).isEmpty then
        let rule := pyStrip current
        let r : ERule :=
          if rule.contains '\x7b' then
            let pat := pyStrip (rule.takeWhile (· != '\x7b'))
            let actionPart := rule.drop ((rule.takeWhile (· != '\x7b')).length + 1)
            ((if pat.isEmpty then none else some pat),
              pyStrip (rsplitBeforeLast '\x7d' actionPart))
          else (some rule, [])
        r :: Enhanced.lineLoop rest [] bc
      else Enhanced.lineLoop rest current bc

/-- `parse_awk_program` of `pyawk_ai_enhanced.py`: BEGIN and END blocks
are collected with `re.finditer` over the naive `[^\x7d]*` patterns and
removed with `re.sub`; the remaining lines run through the brace-counting
loop. -/
def Enhanced.parse_awk_program (program : PyStr) : List ERule :=
  let fuel := program.length + 1
  let beginRules : List ERule :=
    (finditerKw BEGINkw fuel program).map (fun g => (some BEGINkw, pyStrip g))
  let endRules : List ERule :=
    (finditerKw ENDkw fuel program).map (fun g => (some ENDkw, pyStrip g))
  let program := removeKw BEGINkw fuel program
  let program := removeKw ENDkw fuel program
  beginRules ++ endRules ++ Enhanced.lineLoop (splitOnSub ['\n'] program) [] 0

end PyAwk

namespace PyAwk

theorem splitGoF_ne_nil (sep : PyStr) : ∀ (n : Nat) (l : PyStr), splitGoF sep n l ≠ [] := by
  intro n
  induction n with
  | zero => intro l; simp [splitGoF]
  | succ n ih =>
    intro l
    cases l with
    | nil => simp [splitGoF]
    | cons c rest =>
      simp only [splitGoF]
      by_cases h : (!sep.isEmpty && sep.isPrefixOf (c :: rest)) = true
      · simp [h]
      · simp only [h]
        have := ih rest
        cases hr : splitGoF sep n rest with
        | nil => exact absurd hr this
        | cons q qs => simp

theorem ical_nil (s : PyStr) : List.intercalate s ([] : List PyStr) = [] := by
  simp [List.intercalate]

theorem ical_single (s a : PyStr) : List.intercalate s [a] = a := by
  simp [List.intercalate, List.intersperse]

theorem ical_cons₂ (s a b : PyStr) (t : List PyStr) :
    List.intercalate s (a :: b :: t) = a ++ s ++ List.intercalate s (b :: t) := by
  simp [List.intercalate, List.intersperse]

theorem ical_cons_head (s : PyStr) (c : Char) (q : PyStr) (qs : List PyStr) :
    List.intercalate s ((c :: q) :: qs) = c :: List.intercalate s (q :: qs) := by
  cases qs with
  | nil => simp [ical_single]
  | cons b t => simp [ical_cons₂]

theorem subnGoF_cons_pos (pat repl : PyStr) (n : Nat) (c : Char) (rest : PyStr)
    (h : (!pat.isEmpty && pat.isPrefixOf (c :: rest)) = true) :
    subnGoF pat repl (n + 1) (c :: rest) =
      (repl ++ (subnGoF pat repl n ((c :: rest).drop pat.length)).1,
        (subnGoF pat repl n ((c :: rest).drop pat.length)).2 + 1) := by
  simp [subnGoF, h]

theorem subnGoF_cons_neg (pat repl : PyStr) (n : Nat) (c : Char) (rest : PyStr)
    (h : (!pat.isEmpty && pat.isPrefixOf (c :: rest)) = false) :
    subnGoF pat repl (n + 1) (c :: rest) =
      ((c :: (subnGoF pat repl n rest).1), (subnGoF pat repl n rest).2) := by
  simp [subnGoF, h]

theorem splitGoF_cons_pos (pat : PyStr) (n : Nat) (c : Char) (rest : PyStr)
    (h : (!pat.isEmpty && pat.isPrefixOf (c :: rest)) = true) :
    splitGoF pat (n + 1) (c :: rest) =
      [] :: splitGoF pat n ((c :: rest).drop pat.length) := by
  simp [splitGoF, h]

theorem splitGoF_cons_neg (pat : PyStr) (n : Nat) (c : Char) (rest : PyStr)
    (q : PyStr) (qs : List PyStr)
    (h : (!pat.isEmpty && pat.isPrefixOf (c :: rest)) = false)
    (hsp : splitGoF pat n rest = q :: qs) :
    splitGoF pat (n + 1) (c :: rest) = (c :: q) :: qs := by
  simp [splitGoF, h, hsp]

/-- The fuelled replace and split workers agree: literal, nonempty-pattern
replacement is intercalation of the replacement over the literal split,
and the substitution count is one less than the number of split pieces. -/
theorem subnGoF_eq_split (pat repl : PyStr) (hp : ¬pat.isEmpty) :
    ∀ (n : Nat) (l : PyStr), l.length < n →
      subnGoF pat repl n l =
        (List.intercalate repl (splitGoF pat n l), (splitGoF pat n l).length - 1) := by
  intro n
  induction n with
  | zero => intro l hl; omega
  | succ n ih =>
    intro l hl
    cases l with
    | nil => simp [subnGoF, splitGoF, ical_single]
    | cons c rest =>
      cases hcond : (!pat.isEmpty && pat.isPrefixOf (c :: rest)) with
      | true =>
        have hplen : 0 < pat.length := by
          cases pat with
          | nil => simp [List.isEmpty] at hp
          | cons x xs => simp
        have hdrop : ((c :: rest).drop pat.length).length < n := by
          rw [List.length_drop]
          simp only [List.length_cons] at hl ⊢
          omega
        rw [subnGoF_cons_pos pat repl n c rest hcond,
            splitGoF_cons_pos pat n c rest hcond,
            ih ((c :: rest).drop pat.length) hdrop]
        have hne := splitGoF_ne_nil pat n ((c :: rest).drop pat.length)
        cases hsp : splitGoF pat n ((c :: rest).drop pat.length) with
        | nil => exact absurd hsp hne
        | cons q qs =>
          rw [ical_cons₂]
          simp
      | false =>
        have hdrop : rest.length < n := by
          simp only [List.length_cons] at hl
          omega
        have hne := splitGoF_ne_nil pat n rest
        rcases hsp : splitGoF pat n rest with _ | ⟨q, qs⟩
        · exact absurd hsp hne
        · rw [subnGoF_cons_neg pat repl n c rest hcond,
              splitGoF_cons_neg pat n c rest q qs hcond hsp,
              ih rest hdrop, hsp, ical_cons_head]
          simp

/-- `subnLit` for a nonempty pattern, characterised through `splitOnSub`. -/
theorem subnLit_eq_splitOnSub (pat repl l : PyStr) (hp : ¬pat.isEmpty) :
    subnLit pat repl l =
      (List.intercalate repl (splitOnSub pat l), (splitOnSub pat l).length - 1) := by
  simp only [subnLit, splitOnSub, if_neg hp]
  exact subnGoF_eq_split pat repl hp (l.length + 1) l (by omega)

theorem prefixOf_ex (p : PyStr) : ∀ l : PyStr, p.isPrefixOf l = true ↔ ∃ t, l = p ++ t := by
  induction p with
  | nil => intro l; simp [List.isPrefixOf]
  | cons a p ih =>
    intro l
    cases l with
    | nil => simp [List.isPrefixOf]
    | cons c l' =>
      simp only [List.isPrefixOf, Bool.and_eq_true, beq_iff_eq, List.cons_append,
        List.cons.injEq, ih]
      constructor
      · rintro ⟨rfl, t, rfl⟩; exact ⟨t, rfl, rfl⟩
      · rintro ⟨t, rfl, rfl⟩; exact ⟨rfl, t, rfl⟩

theorem findSub_some_spec (pat : PyStr) :
    ∀ (l : PyStr) (k : Nat), findSub pat l = some k →
      pat.isPrefixOf (l.drop k) = true ∧
        ∀ j, j < k → pat.isPrefixOf (l.drop j) = false := by
  intro l
  induction l with
  | nil =>
    intro k h
    simp only [findSub] at h
    rcases hb : pat.isPrefixOf [] with _ | _
    · rw [hb] at h; simp at h
    · rw [hb] at h
      simp only [if_pos rfl] at h
      cases h
      exact ⟨hb, by omega⟩
  | cons c rest ih =>
    intro k h
    rcases hb : pat.isPrefixOf (c :: rest) with _ | _
    · simp only [findSub, hb] at h
      simp at h
      obtain ⟨k', hk', hkk⟩ := h
      subst hkk
      obtain ⟨h1, h2⟩ := ih k' hk'
      refine ⟨by simpa using h1, ?_⟩
      intro j hj
      cases j with
      | zero => simpa using hb
      | succ j => simpa using h2 j (by omega)
    · simp only [findSub, hb] at h
      simp at h
      subst h
      exact ⟨by simpa using hb, by omega⟩

theorem findSub_none_spec (pat : PyStr) :
    ∀ l : PyStr, findSub pat l = none →
      ∀ j, pat.isPrefixOf (l.drop j) = false := by
  intro l
  induction l with
  | nil =>
    intro h j
    simp only [findSub] at h
    rcases hb : pat.isPrefixOf [] with _ | _
    · simpa using hb
    · rw [hb] at h; simp at h
  | cons c rest ih =>
    intro h j
    rcases hb : pat.isPrefixOf (c :: rest) with _ | _
    · simp only [findSub, hb] at h
      simp at h
      cases j with
      | zero => simpa using hb
      | succ j => simpa using ih h j
    · simp only [findSub, hb] at h
      simp at h

theorem findSub_isSome_of (pat : PyStr) :
    ∀ (l : PyStr) (j : Nat), pat.isPrefixOf (l.drop j) = true →
      (findSub pat l).isSome = true := by
  intro l j h
  rcases hf : findSub pat l with _ | k
  · rw [findSub_none_spec pat l hf j] at h
    cases h
  · simp

/-- Substring containment characterised as an explicit decomposition. -/
theorem containsSub_ex (pat l : PyStr) :
    containsSub pat l = true ↔ ∃ a b, l = a ++ pat ++ b := by
  constructor
  · intro h
    simp only [containsSub, Option.isSome_iff_exists] at h
    obtain ⟨k, hk⟩ := h
    obtain ⟨h1, _⟩ := findSub_some_spec pat l k hk
    obtain ⟨t, ht⟩ := (prefixOf_ex pat (l.drop k)).mp h1
    refine ⟨l.take k, t, ?_⟩
    conv_lhs => rw [← List.take_append_drop k l]
    rw [ht, List.append_assoc]
  · rintro ⟨a, b, rfl⟩
    have : pat.isPrefixOf ((a ++ pat ++ b).drop a.length) = true := by
      rw [List.append_assoc, List.drop_left]
      exact (prefixOf_ex pat (pat ++ b)).mpr ⟨b, rfl⟩
    exact findSub_isSome_of pat _ a.length this

theorem containsSub_reverse (pat l : PyStr) :
    containsSub pat.reverse l.reverse = containsSub pat l := by
  have h : (containsSub pat.reverse l.reverse = true) ↔ (containsSub pat l = true) := by
    rw [containsSub_ex, containsSub_ex]
    constructor
    · rintro ⟨a, b, hab⟩
      refine ⟨b.reverse, a.reverse, ?_⟩
      have := congrArg List.reverse hab
      simpa using this
    · rintro ⟨a, b, rfl⟩
      exact ⟨b.reverse, a.reverse, by simp⟩
  rcases hx : containsSub pat.reverse l.reverse with _ | _ <;>
    rcases hy : containsSub pat l with _ | _ <;> simp_all

/-- Dropping leading characters that the (nonempty) pattern's first
character cannot match does not change containment. -/
theorem containsSub_dropWhile (p : Char → Bool) (pat : PyStr)
    (hpat : pat ≠ []) (hhead : p (pat.headD ' ') = false) :
    ∀ l : PyStr, containsSub pat (l.dropWhile p) = containsSub pat l := by
  intro l
  induction l with
  | nil => simp
  | cons c rest ih =>
    rcases hc : p c with _ | _
    · simp [List.dropWhile, hc]
    · rw [List.dropWhile_cons_of_pos (by simp [hc]), ih]
      have hb : pat.isPrefixOf (c :: rest) = false := by
        cases pat with
        | nil => exact absurd rfl hpat
        | cons x xs =>
          simp only [List.headD] at hhead
          simp only [List.isPrefixOf, Bool.and_eq_false_iff, beq_eq_false_iff_ne]
          left
          rintro rfl
          rw [hc] at hhead
          cases hhead
      simp only [containsSub, findSub, hb, Bool.false_eq_true, if_neg]
      simp

/-- Python `str.strip` does not affect containment of a nonempty,
whitespace-free pattern. -/
theorem containsSub_pyStrip (pat : PyStr) (hpat : pat ≠ [])
    (hws : pat.all (fun c => !isPySpace c) = true) (l : PyStr) :
    containsSub pat (pyStrip l) = containsSub pat l := by
  have hrevne : pat.reverse ≠ [] := by simpa using hpat
  have hmem : ∀ c ∈ pat, isPySpace c = false := by
    intro c hc
    have := List.all_eq_true.mp hws c hc
    simpa using this
  have hhead : isPySpace (pat.headD ' ') = false := by
    cases pat with
    | nil => exact absurd rfl hpat
    | cons x xs => exact hmem x (by simp)
  have hheadrev : isPySpace (pat.reverse.headD ' ') = false := by
    rcases hrv : pat.reverse with _ | ⟨x, xs⟩
    · exact absurd hrv hrevne
    · have : x ∈ pat.reverse := by rw [hrv]; simp
      exact hmem x (by simpa using this)
  calc containsSub pat (pyStrip l)
      = containsSub pat.reverse (pyStrip l).reverse := (containsSub_reverse pat (pyStrip l)).symm
    _ = containsSub pat.reverse ((l.dropWhile isPySpace).reverse.dropWhile isPySpace) := by
        simp [pyStrip]
    _ = containsSub pat.reverse (l.dropWhile isPySpace).reverse := by
        rw [containsSub_dropWhile isPySpace pat.reverse hrevne hheadrev]
    _ = containsSub pat (l.dropWhile isPySpace) := containsSub_reverse pat (l.dropWhile isPySpace)
    _ = containsSub pat l := containsSub_dropWhile isPySpace pat hpat hhead l

theorem beginPhase_countP (rules : List Rule) :
    (beginPhase rules).length = rules.countP (fun r => r.1 == BEGINkw) := by
  induction rules with
  | nil => simp [beginPhase]
  | cons r rs ih =>
    obtain ⟨c, a⟩ := r
    by_cases h : c = BEGINkw
    · simp [beginPhase, h, ih, List.countP_cons]
    · simp [beginPhase, h, ih, List.countP_cons]

theorem endPhase_countP (rules : List Rule) :
    (endPhase rules).length = rules.countP (fun r => r.1 == ENDkw) := by
  induction rules with
  | nil => simp [endPhase]
  | cons r rs ih =>
    obtain ⟨c, a⟩ := r
    by_cases h : c = ENDkw
    · simp [endPhase, h, ih, List.countP_cons]
    · simp [endPhase, h, ih, List.countP_cons]

theorem beginPhase_phases (rules : List Rule) :
    (beginPhase rules).all (fun e => e.1 == Phase.beginP) = true := by
  induction rules with
  | nil => simp [beginPhase]
  | cons r rs ih =>
    obtain ⟨c, a⟩ := r
    by_cases h : c = BEGINkw <;> simp [beginPhase, h, ih]

theorem endPhase_phases (rules : List Rule) :
    (endPhase rules).all (fun e => e.1 == Phase.endP) = true := by
  induction rules with
  | nil => simp [endPhase]
  | cons r rs ih =>
    obtain ⟨c, a⟩ := r
    by_cases h : c = ENDkw <;> simp [endPhase, h, ih]

theorem recordPhase_phases (ec : PyStr → PyStr → Bool) (line : PyStr) (rules : List Rule) :
    (recordPhase ec line rules).all (fun e => e.1 == Phase.mainP) = true := by
  induction rules with
  | nil => simp [recordPhase]
  | cons r rs ih =>
    obtain ⟨c, a⟩ := r
    by_cases h : c ≠ BEGINkw ∧ c ≠ ENDkw ∧ ec line c = true
    · simp [recordPhase, if_pos h, ih]
    · simp [recordPhase, if_neg h, ih]

theorem mainPhase_phases (ec : PyStr → PyStr → Bool) (lines : List PyStr) (rules : List Rule) :
    (mainPhase ec lines rules).all (fun e => e.1 == Phase.mainP) = true := by
  induction lines with
  | nil => simp [mainPhase]
  | cons ln lns ih =>
    simp only [mainPhase, List.flatMap_cons, List.all_append]
    rw [recordPhase_phases ec ln rules, Bool.true_and]
    simpa only [mainPhase] using ih

theorem all_countP_zero {α : Type} (p q : α → Bool) (l : List α)
    (hall : l.all p = true) (hpq : ∀ x, p x = true → q x = false) :
    l.countP q = 0 := by
  induction l with
  | nil => simp
  | cons x xs ih =>
    simp only [List.all_cons, Bool.and_eq_true] at hall
    rw [List.countP_cons, hpq x hall.1, ih hall.2]
    simp

theorem all_countP_self {α : Type} (p : α → Bool) (l : List α) (h : l.all p = true) :
    l.countP p = l.length := by
  induction l with
  | nil => simp
  | cons x xs ih =>
    simp only [List.all_cons, Bool.and_eq_true] at h
    rw [List.countP_cons, h.1, ih h.2]
    simp

theorem mainPhase_no_begin (ec : PyStr → PyStr → Bool) (lines : List PyStr) (rules : List Rule) :
    (mainPhase ec lines rules).countP (fun e => e.1 == Phase.beginP) = 0 := by
  refine all_countP_zero _ _ _ (mainPhase_phases ec lines rules) ?_
  intro e he
  simp only [beq_iff_eq] at he ⊢
  rw [he]
  simp

theorem mainPhase_no_end (ec : PyStr → PyStr → Bool) (lines : List PyStr) (rules : List Rule) :
    (mainPhase ec lines rules).countP (fun e => e.1 == Phase.endP) = 0 := by
  refine all_countP_zero _ _ _ (mainPhase_phases ec lines rules) ?_
  intro e he
  simp only [beq_iff_eq] at he ⊢
  rw [he]
  simp

theorem endPhase_no_begin (rules : List Rule) :
    (endPhase rules).countP (fun e => e.1 == Phase.beginP) = 0 := by
  refine all_countP_zero _ _ _ (endPhase_phases rules) ?_
  intro e he
  simp only [beq_iff_eq] at he ⊢
  rw [he]
  simp

theorem beginPhase_no_end (rules : List Rule) :
    (beginPhase rules).countP (fun e => e.1 == Phase.endP) = 0 := by
  refine all_countP_zero _ _ _ (beginPhase_phases rules) ?_
  intro e he
  simp only [beq_iff_eq] at he ⊢
  rw [he]
  simp

theorem beginPhase_count_self (rules : List Rule) :
    (beginPhase rules).countP (fun e => e.1 == Phase.beginP) = (beginPhase rules).length :=
  all_countP_self _ _ (beginPhase_phases rules)

theorem endPhase_count_self (rules : List Rule) :
    (endPhase rules).countP (fun e => e.1 == Phase.endP) = (endPhase rules).length :=
  all_countP_self _ _ (endPhase_phases rules)

theorem recordPhase_append (ec : PyStr → PyStr → Bool) (line : PyStr)
    (xs ys : List Rule) :
    recordPhase ec line (xs ++ ys) =
      recordPhase ec line xs ++ recordPhase ec line ys := by
  induction xs with
  | nil => simp [recordPhase]
  | cons r rs ih =>
    obtain ⟨c, a⟩ := r
    simp only [List.cons_append, recordPhase, List.append_eq, ih, List.append_assoc]

/-- Python `rstrip('\n')` removes a trailing newline character. -/
theorem pyRstripNl_append_nl (l : PyStr) : pyRstripNl (l ++ ['\n']) = pyRstripNl l := by
  simp [pyRstripNl, List.dropWhile]

/-- Python `rstrip('\n')` is the identity on a string whose last
character is not a newline (including the empty string, where
`getLastD` returns the default `'x'`). -/
theorem pyRstripNl_of_last_ne (l : PyStr) (h : l.getLastD 'x' ≠ '\n') :
    pyRstripNl l = l := by
  rcases hr : l.reverse with _ | ⟨c, r⟩
  · have : l = [] := by simpa using congrArg List.reverse hr
    simp [this, pyRstripNl]
  · have hlast : l.getLast? = some c := by
      rw [← List.head?_reverse, hr]
      rfl
    have hc : l.getLastD 'x' = c := by
      rw [List.getLastD_eq_getLast?, hlast]
      rfl
    have hcne : ¬((c == '\n') = true) := by
      simp only [beq_iff_eq]
      intro hcn
      exact h (hc.trans hcn)
    have hmain : pyRstripNl l = ((c :: r).dropWhile (· == '\n')).reverse := by
      rw [pyRstripNl, hr]
    have hdw : (c :: r).dropWhile (· == '\n') = c :: r := by
      rw [List.dropWhile_cons]
      simp [hcne]
    rw [hmain, hdw, ← hr, List.reverse_reverse]

theorem splitPGo_ne_nil (p : Char → Bool) : ∀ l : PyStr, splitPGo p l ≠ [] := by
  intro l
  induction l with
  | nil => simp [splitPGo]
  | cons c rest ih =>
    rcases hc : p c with _ | _
    · simp only [splitPGo, hc, Bool.false_eq_true, if_neg]
      rcases hs : splitPGo p rest with _ | ⟨q, qs⟩
      · exact absurd hs ih
      · simp
    · simp [splitPGo, hc]

theorem filter_splitPGo_ws (p : Char → Bool) :
    ∀ w : PyStr, (∀ c ∈ w, p c = true) →
      (splitPGo p w).filter (fun x => !x.isEmpty) = [] := by
  intro w
  induction w with
  | nil => intro _; simp [splitPGo]
  | cons c rest ih =>
    intro hw
    have hc : p c = true := hw c (by simp)
    simp only [splitPGo, hc, if_pos rfl, List.filter_cons]
    simpa using ih (fun c hc => hw c (by simp [hc]))

theorem splitPGo_cons_pos (p : Char → Bool) (c : Char) (rest : PyStr) (h : p c = true) :
    splitPGo p (c :: rest) = [] :: splitPGo p rest := by
  simp [splitPGo, h]

theorem splitPGo_cons_neg (p : Char → Bool) (c : Char) (rest q : PyStr) (qs : List PyStr)
    (h : p c = false) (hs : splitPGo p rest = q :: qs) :
    splitPGo p (c :: rest) = (c :: q) :: qs := by
  simp [splitPGo, h, hs]

theorem splitPGo_append_ws (p : Char → Bool) (w : PyStr) (hw : ∀ c ∈ w, p c = true) :
    ∀ l : PyStr,
      (splitPGo p (l ++ w)).headD [] = (splitPGo p l).headD [] ∧
        ((splitPGo p (l ++ w)).tail).filter (fun x => !x.isEmpty) =
          ((splitPGo p l).tail).filter (fun x => !x.isEmpty) := by
  intro l
  induction l with
  | nil =>
    simp only [List.nil_append]
    cases w with
    | nil => simp
    | cons c rest =>
      have hc : p c = true := hw c (by simp)
      rw [splitPGo_cons_pos p c rest hc]
      constructor
      · rfl
      · have hall := filter_splitPGo_ws p (c :: rest) hw
        rw [splitPGo_cons_pos p c rest hc, List.filter_cons] at hall
        simp only [List.tail_cons, splitPGo, List.tail_nil]
        simpa using hall
  | cons c rest ih =>
    obtain ⟨ihh, iht⟩ := ih
    rcases h1 : splitPGo p (rest ++ w) with _ | ⟨q1, qs1⟩
    · exact absurd h1 (splitPGo_ne_nil p (rest ++ w))
    rcases h2 : splitPGo p rest with _ | ⟨q2, qs2⟩
    · exact absurd h2 (splitPGo_ne_nil p rest)
    rw [h1, h2] at ihh iht
    simp only [List.headD_cons] at ihh
    simp only [List.tail_cons] at iht
    rcases hc : p c with _ | _
    · rw [List.cons_append, splitPGo_cons_neg p c (rest ++ w) q1 qs1 hc h1,
          splitPGo_cons_neg p c rest q2 qs2 hc h2]
      refine ⟨by simp [ihh], ?_⟩
      simpa using iht
    · rw [List.cons_append, splitPGo_cons_pos p c (rest ++ w) hc,
          splitPGo_cons_pos p c rest hc]
      refine ⟨rfl, ?_⟩
      simp only [List.tail_cons, h1, h2, List.filter_cons, ihh, iht]

theorem splitWs_append_ws (w : PyStr) (hw : ∀ c ∈ w, isPySpace c = true) (l : PyStr) :
    splitWs (l ++ w) = splitWs l := by
  obtain ⟨hh, ht⟩ := splitPGo_append_ws isPySpace w hw l
  rcases h1 : splitPGo isPySpace (l ++ w) with _ | ⟨q1, qs1⟩
  · exact absurd h1 (splitPGo_ne_nil isPySpace (l ++ w))
  · rcases h2 : splitPGo isPySpace l with _ | ⟨q2, qs2⟩
    · exact absurd h2 (splitPGo_ne_nil isPySpace l)
    · rw [h1, h2] at hh ht
      simp only [List.headD_cons] at hh
      simp only [List.tail_cons] at ht
      subst hh
      simp only [splitWs, h1, h2, List.filter_cons]
      rw [ht]

theorem splitWs_dropWhile (l : PyStr) :
    splitWs (l.dropWhile isPySpace) = splitWs l := by
  induction l with
  | nil => simp
  | cons c rest ih =>
    rcases hc : isPySpace c with _ | _
    · rw [List.dropWhile_cons]
      simp [hc]
    · have hd : (c :: rest).dropWhile isPySpace = rest.dropWhile isPySpace := by
        rw [List.dropWhile_cons]
        simp [hc]
      rw [hd, ih]
      simp only [splitWs, splitPGo_cons_pos isPySpace c rest hc, List.filter_cons]
      simp

theorem mem_takeWhile_p (p : Char → Bool) :
    ∀ l : PyStr, ∀ c ∈ l.takeWhile p, p c = true := by
  intro l
  induction l with
  | nil => simp
  | cons x rest ih =>
    intro c hc
    rcases hx : p x with _ | _
    · rw [List.takeWhile_cons, hx] at hc
      simp at hc
    · rw [List.takeWhile_cons, hx] at hc
      simp at hc
      rcases hc with rfl | hc
      · exact hx
      · exact ih c hc

/-- Python `str.split()` ignores leading and trailing whitespace, so
splitting after `strip()` equals splitting the raw string: the "trim then
split on runs of whitespace" rule is exactly `str.split()`. -/
theorem splitWs_pyStrip (l : PyStr) : splitWs (pyStrip l) = splitWs l := by
  have h1 : splitWs l = splitWs (l.dropWhile isPySpace) := (splitWs_dropWhile l).symm
  have hdecomp :
      l.dropWhile isPySpace =
        pyStrip l ++ ((l.dropWhile isPySpace).reverse.takeWhile isPySpace).reverse := by
    conv_lhs => rw [← List.reverse_reverse (l.dropWhile isPySpace)]
    conv_lhs =>
      rw [← List.takeWhile_append_dropWhile
            (p := isPySpace) (l := (l.dropWhile isPySpace).reverse)]
    rw [List.reverse_append]
    rfl
  have hws : ∀ c ∈ ((l.dropWhile isPySpace).reverse.takeWhile isPySpace).reverse,
      isPySpace c = true := by
    intro c hc
    rw [List.mem_reverse] at hc
    exact mem_takeWhile_p isPySpace _ c hc
  rw [h1, hdecomp, splitWs_append_ws _ hws]

theorem processFile_count_begin (ec : PyStr → PyStr → Bool) (rules : List Rule)
    (lines : List PyStr) :
    (processFileTrace ec rules lines).countP (fun e => e.1 == Phase.beginP) =
      rules.countP (fun r => r.1 == BEGINkw) := by
  simp only [processFileTrace, List.countP_append]
  rw [beginPhase_count_self, beginPhase_countP, mainPhase_no_begin, endPhase_no_begin]
  omega

theorem processFile_count_end (ec : PyStr → PyStr → Bool) (rules : List Rule)
    (lines : List PyStr) :
    (processFileTrace ec rules lines).countP (fun e => e.1 == Phase.endP) =
      rules.countP (fun r => r.1 == ENDkw) := by
  simp only [processFileTrace, List.countP_append]
  rw [endPhase_count_self, endPhase_countP, mainPhase_no_end, beginPhase_no_end]
  omega

theorem runFiles_count_begin (ec : PyStr → PyStr → Bool) (rules : List Rule)
    (files : List (List PyStr)) :
    (runFilesTrace ec rules files).countP (fun e => e.1 == Phase.beginP) =
      files.length * rules.countP (fun r => r.1 == BEGINkw) := by
  induction files with
  | nil => simp [runFilesTrace]
  | cons f fs ih =>
    simp only [runFilesTrace, List.flatMap_cons, List.countP_append]
    rw [processFile_count_begin]
    simp only [runFilesTrace] at ih
    rw [ih, List.length_cons, Nat.succ_mul]
    omega

theorem runFiles_count_end (ec : PyStr → PyStr → Bool) (rules : List Rule)
    (files : List (List PyStr)) :
    (runFilesTrace ec rules files).countP (fun e => e.1 == Phase.endP) =
      files.length * rules.countP (fun r => r.1 == ENDkw) := by
  induction files with
  | nil => simp [runFilesTrace]
  | cons f fs ih =>
    simp only [runFilesTrace, List.flatMap_cons, List.countP_append]
    rw [processFile_count_end]
    simp only [runFilesTrace] at ih
    rw [ih, List.length_cons, Nat.succ_mul]
    omega

theorem padFields_length (fields : List PyStr) (n : Nat) :
    (Fixed.padFields fields n).length = max fields.length (n + 1) := by
  unfold Fixed.padFields
  by_cases h : fields.length ≤ n
  · rw [if_pos h, List.length_append, List.length_replicate]
    omega
  · rw [if_neg h]
    omega

theorem cast_max_sub_one (len k : Nat) (_hlen : 1 ≤ len) :
    ((max len (k + 1) : Nat) : Int) - 1 = max ((len : Int) - 1) (k : Int) := by
  rcases le_total len (k + 1) with h | h
  · rw [max_eq_right h, max_eq_right (by omega : (len : Int) - 1 ≤ (k : Int))]
    omega
  · rw [max_eq_left h, max_eq_left (by omega : (k : Int) ≤ (len : Int) - 1)]

theorem headD_set_zero (l : List PyStr) (x : PyStr) (h : l ≠ []) :
    (l.set 0 x).headD [] = x := by
  cases l with
  | nil => exact absurd rfl h
  | cons a t => rfl

theorem drop_one_set_zero (l : List PyStr) (x : PyStr) :
    (l.set 0 x).drop 1 = l.drop 1 := by
  cases l with
  | nil => rfl
  | cons a t => rfl

/-- Claim C1, counterexample.  The claim states that `gsub(re, repl,
target)` mutates the target lvalue and returns the number of
substitutions; in the fixed variant `gsub("o", "0", "foo bar")` returns
the *replaced string* `"f00 bar"` (a string value, not the numeric count
`2`), and no state is mutated — `gsub` is a pure static method of its
string arguments. -/
theorem c1_counterexample :
    Fixed.gsub (("o").toList) (("0").toList) (some (("foo bar").toList)) =
        PyVal.str (("f00 bar").toList) ∧
      PyVal.str (("f00 bar").toList) ≠ PyVal.num 2 := by
  constructor
  · decide
  · decide

/-- Claim C1 (amended): neither variant mutates a target lvalue; for a
literal (metacharacter-free, nonempty) regex, the fixed variant's `gsub`
returns the string with all non-overlapping matches replaced (the
intercalation of the replacement over the literal split), while the
enhanced variant's `gsub` returns the number of substitutions and
discards the replaced string.  In particular `gsub("o", "0", "foo bar")`
is the string `"f00 bar"` in the fixed variant and the count `2` in the
enhanced variant. -/
theorem c1_gsub_contract (re repl t : PyStr) (hre : ¬re.isEmpty) :
    Fixed.gsub re repl (some t) =
        PyVal.str (List.intercalate repl (splitOnSub re t)) ∧
      Enhanced.gsub re repl t = (splitOnSub re t).length - 1 ∧
      Fixed.gsub (("o").toList) (("0").toList) (some (("foo bar").toList)) =
        PyVal.str (("f00 bar").toList) ∧
      Enhanced.gsub (("o").toList) (("0").toList) (("foo bar").toList) = 2 := by
  refine ⟨?_, ?_, by decide, by decide⟩
  · simp only [Fixed.gsub, subnLit_eq_splitOnSub re repl t hre]
  · simp only [Enhanced.gsub, subnLit_eq_splitOnSub re repl t hre]

/-- Claim C1 witness: the contract applied at `gsub("o", "0", "foo bar")`. -/
theorem c1_witness :
    Fixed.gsub (("o").toList) (("0").toList) (some (("foo bar").toList)) =
      PyVal.str (List.intercalate (("0").toList)
        (splitOnSub (("o").toList) (("foo bar").toList))) :=
  (c1_gsub_contract (("o").toList) (("0").toList) (("foo bar").toList) (by decide)).1

/-- Claim C2, counterexample.  The claim states that BEGIN rules run
exactly once per run, including for an input consisting of multiple
files; in the code, `main` calls `process_file` — which executes the
BEGIN rules at its start — once per input file, so a run over two files
executes a single BEGIN rule's action twice, not once. -/
theorem c2_counterexample :
    (runFilesTrace (fun _ _ => false) [(BEGINkw, ("print").toList)]
        [[], []]).countP (fun e => e.1 == Phase.beginP) = 2 ∧ (2 : Nat) ≠ 1 := by
  constructor
  · decide
  · decide

/-- Claim C2 (amended): each BEGIN rule's action is executed exactly once
per *input file*, before any record of that file, and each END rule's
action exactly once per input file, after its last record (also when the
file has zero records); over a run the BEGIN/END actions therefore
execute `number of files × number of BEGIN/END rules` times, which is
once per run exactly when there is a single input source. -/
theorem c2_begin_end_once_per_file (ec : PyStr → PyStr → Bool) (rules : List Rule)
    (files : List (List PyStr)) (lines : List PyStr) :
    (runFilesTrace ec rules files).countP (fun e => e.1 == Phase.beginP) =
        files.length * rules.countP (fun r => r.1 == BEGINkw) ∧
      (runFilesTrace ec rules files).countP (fun e => e.1 == Phase.endP) =
        files.length * rules.countP (fun r => r.1 == ENDkw) ∧
      processFileTrace ec rules lines =
        beginPhase rules ++ mainPhase ec lines rules ++ endPhase rules ∧
      (beginPhase rules).length = rules.countP (fun r => r.1 == BEGINkw) ∧
      (endPhase rules).length = rules.countP (fun r => r.1 == ENDkw) ∧
      (mainPhase ec lines rules).all (fun e => e.1 == Phase.mainP) = true :=
  ⟨runFiles_count_begin ec rules files, runFiles_count_end ec rules files,
    rfl, beginPhase_countP rules, endPhase_countP rules,
    mainPhase_phases ec lines rules⟩

theorem isLiteralPat_char_plus (ch : Char) : isLiteralPat [ch, '+'] = false := by
  have h2 : reMeta.contains '+' = true := by decide
  simp [isLiteralPat, List.all_cons, h2]
  intro _
  decide

/-- Claim C3, counterexample.  The claim states that a non-space,
nonempty FS is treated as a regular expression; with `FS = "a+"` on the
line `"baab\n"`, a regex split yields the two fields `"b", "b"` (shown
via the `re.split` model, which is also what the enhanced variant
computes), but the fixed variant's `split_fields` uses the *literal*
`str.split` and leaves the single field `"baab"`. -/
theorem c3_counterexample :
    (Fixed.split_fields { vars := { initVars with FS := ("a+").toList }, fields := [], current_line := ("baab\n").toList } (("baab\n").toList)).fields =
        [[], ("baab").toList] ∧
      reSplitModel (("a+").toList) (("baab").toList) =
        some [("b").toList, ("b").toList] ∧
      ([[], ("baab").toList] : List PyStr) ≠ [[], ("b").toList, ("b").toList] := by
  refine ⟨by decide, by decide, by decide⟩

/-- Claim C3 (amended): both variants split on runs of whitespace (after
trimming, which `str.split()` makes immaterial) when FS is a single
space, and into one field per character when FS is empty; otherwise the
*enhanced* variant treats FS as a regular expression and splits on its
matches (shown for literal patterns, where the regex split equals the
literal split, and for single-character `c+` patterns, which split on
maximal runs of `c`), while the *fixed* variant always splits on literal
occurrences of the FS string in the line with trailing newlines
stripped. -/
theorem c3_split_rules (v ev : AwkVars) (fields0 efields0 : List PyStr)
    (cl line record fs : PyStr) (ch : Char)
    (hlit : isLiteralPat fs = true) (hne : fs ≠ []) (hsp : fs ≠ [' '])
    (hch : ch ∉ reMeta) :
    (Fixed.split_fields { vars := { v with FS := [' '] }, fields := fields0, current_line := cl } line).fields = [] :: splitWs (pyStrip line) ∧
    splitWs (pyStrip line) = splitWs line ∧
    (Fixed.split_fields { vars := { v with FS := [] }, fields := fields0, current_line := cl } line).fields = [] :: line.map (fun c => [c]) ∧
    (Fixed.split_fields { vars := { v with FS := fs }, fields := fields0, current_line := cl } line).fields = [] :: splitOnSub fs (pyRstripNl line) ∧
    (Enhanced.split_record { vars := { ev with FS := [' '] }, fields := efields0 } record).map Enhanced.St.fields = some (record :: splitWs (pyStrip record)) ∧
    (Enhanced.split_record { vars := { ev with FS := [] }, fields := efields0 } record).map Enhanced.St.fields = some (record :: record.map (fun c => [c])) ∧
    (Enhanced.split_record { vars := { ev with FS := fs }, fields := efields0 } record).map Enhanced.St.fields = some (record :: splitOnSub fs record) ∧
    (Enhanced.split_record { vars := { ev with FS := [ch, '+'] }, fields := efields0 } record).map Enhanced.St.fields =
      some (record :: runSplitF ch (record.length + 1) record) := by
  refine ⟨by simp [Fixed.split_fields], splitWs_pyStrip line,
    by simp [Fixed.split_fields], ?_, by simp [Enhanced.split_record],
    by simp [Enhanced.split_record], ?_, ?_⟩
  · simp [Fixed.split_fields, hne, hsp]
  · simp [Enhanced.split_record, hne, hsp, reSplitModel, hlit]
  · have hplus : ([ch, '+'] : PyStr) ≠ [' '] := by simp
    have hplusne : ([ch, '+'] : PyStr) ≠ [] := by simp
    simp [Enhanced.split_record, hplus, hplusne, reSplitModel,
      isLiteralPat_char_plus, hch]

/-- Claim C3 witness: the fixed variant with `FS = ","` splits the line
`"a,b\n"` literally after stripping the trailing newline. -/
theorem c3_witness :
    (Fixed.split_fields { vars := { initVars with FS := [','] }, fields := [], current_line := [] } (("a,b\n").toList)).fields =
      [] :: splitOnSub ([',']) (pyRstripNl (("a,b\n").toList)) :=
  (c3_split_rules initVars initVars [] [] [] (("a,b\n").toList) (("a,b\n").toList)
    ([',']) 'a' (by decide) (by decide) (by decide) (by decide)).2.2.2.1

/-- Claim C4, counterexample.  The claim states that after `setField(k,
v)` field 0 equals fields 1..NF joined by OFS, for *every* value `v`.  In
the fixed variant field 0 is read back through
`current_line.rstrip('\n')`, so a value ending in a newline loses it:
after splitting `"a b\n"` and setting field 2 to `"y\n"`, field 0 reads
`"a y"` while the OFS-join of fields 1..NF is `"a y\n"`. -/
theorem c4_counterexample :
    Fixed.get_field (Fixed.set_field (Fixed.split_fields { vars := initVars, fields := [], current_line := ("a b\n").toList } (("a b\n").toList)) 2 (("y\n").toList)) 0 =
        ("a y").toList ∧
      List.intercalate initVars.OFS
          ((Fixed.set_field (Fixed.split_fields { vars := initVars, fields := [], current_line := ("a b\n").toList } (("a b\n").toList)) 2 (("y\n").toList)).fields.drop 1) =
        ("a y\n").toList ∧
      ("a y").toList ≠ ("a y\n").toList := by
  refine ⟨by decide, by decide, by decide⟩

/-- Claim C4 (amended): for a well-formed record state (`NF` is the field
count and the placeholder/record slot at index 0 is present), after
`set_field k v` with `k ≥ 1` both variants set `NF` to `max(previous NF,
k)`; the enhanced variant's field 0 equals fields 1..NF joined by OFS
exactly, while the fixed variant stores that join plus a trailing
newline and reading field 0 strips trailing newlines, so its field 0
equals the join whenever the join does not itself end in a newline. -/
theorem c4_set_field_invariant (st : Fixed.St) (est : Enhanced.St) (k : Nat) (v : PyStr)
    (hk : 1 ≤ k)
    (hwf : st.vars.NF = (st.fields.length : Int) - 1) (hne : st.fields ≠ [])
    (hewf : est.vars.NF = (est.fields.length : Int) - 1) (hene : est.fields ≠ []) :
    (Fixed.set_field st k v).vars.NF = max st.vars.NF (k : Int) ∧
    (Enhanced.set_field est k v).vars.NF = max est.vars.NF (k : Int) ∧
    Enhanced.get_field (Enhanced.set_field est k v) 0 =
      List.intercalate est.vars.OFS ((Enhanced.set_field est k v).fields.drop 1) ∧
    ((List.intercalate st.vars.OFS ((Fixed.set_field st k v).fields.drop 1)).getLastD 'x' ≠ '\n' →
      Fixed.get_field (Fixed.set_field st k v) 0 =
        List.intercalate st.vars.OFS ((Fixed.set_field st k v).fields.drop 1)) := by
  have hlen : 1 ≤ st.fields.length := by
    cases hf : st.fields with
    | nil => exact absurd hf hne
    | cons a t => simp
  have helen : 1 ≤ est.fields.length := by
    cases hf : est.fields with
    | nil => exact absurd hf hene
    | cons a t => simp
  have hkpos : 0 < k := hk
  refine ⟨?_, ?_, ?_, ?_⟩
  · show ((((Fixed.padFields st.fields k).set k v).length : Int) - 1) = max st.vars.NF (k : Int)
    rw [List.length_set, padFields_length, cast_max_sub_one st.fields.length k hlen, hwf]
  · show (Enhanced.set_field est k v).vars.NF = max est.vars.NF (k : Int)
    simp only [Enhanced.set_field, if_pos hkpos]
    show ((((Fixed.padFields est.fields k).set k v).set 0 _).length : Int) - 1 =
      max est.vars.NF (k : Int)
    rw [List.length_set, List.length_set, padFields_length,
      cast_max_sub_one est.fields.length k helen, hewf]
  · simp only [Enhanced.set_field, if_pos hkpos]
    have hXne : ((Fixed.padFields est.fields k).set k v) ≠ [] := by
      have : 0 < ((Fixed.padFields est.fields k).set k v).length := by
        rw [List.length_set, padFields_length]
        omega
      exact List.ne_nil_of_length_pos this
    show Enhanced.get_field _ 0 = _
    simp only [Enhanced.get_field, if_pos rfl]
    rw [drop_one_set_zero]
    exact headD_set_zero _ _ hXne
  · intro hlast
    show pyRstripNl ((Fixed.set_field st k v).current_line) = _
    have hcl : (Fixed.set_field st k v).current_line =
        List.intercalate st.vars.OFS ((Fixed.set_field st k v).fields.drop 1) ++ ['\n'] := rfl
    rw [hcl, pyRstripNl_append_nl, pyRstripNl_of_last_ne _ hlast]

/-- Claim C4 witness: the invariant applied to the state obtained from
splitting `"a b\n"` with default separators, setting field 5. -/
theorem c4_witness :
    (Fixed.set_field (Fixed.split_fields { vars := initVars, fields := [], current_line := ("a b\n").toList } (("a b\n").toList)) 5 (("z").toList)).vars.NF =
      max (Fixed.split_fields { vars := initVars, fields := [], current_line := ("a b\n").toList } (("a b\n").toList)).vars.NF (5 : Int) :=
  (c4_set_field_invariant
    (Fixed.split_fields { vars := initVars, fields := [], current_line := ("a b\n").toList } (("a b\n").toList))
    { vars := { initVars with NF := 2 }, fields := [("a b").toList, ("a").toList, ("b").toList] }
    5 (("z").toList) (by decide) (by decide) (by decide) (by decide) (by decide)).1

end PyAwk

namespace PyAwk

/-- Claim C5, counterexample.  The claim states `len <= 0` returns the
empty string; in the enhanced variant the Python slice
`s[start : start + length]` is used, where a negative stop counts from
the end of the string: `substr("hello", 1, -1)` returns `"hell"`, not
`""`. -/
theorem c5_counterexample :
    Enhanced.substr (("hello").toList) 1 (some (-1)) = ("hell").toList ∧
      ("hell").toList ≠ ([] : PyStr) := by
  refine ⟨by decide, by decide⟩

/-- Claim C5 (amended): the *fixed* variant's `substr` satisfies all the
claimed properties — `start < 1` is clamped to 1, an omitted `len`
returns the suffix from `start` (empty when `start` exceeds the length),
`len <= 0` returns the empty string, `substr("hello",2,2) = "el"` and
`substr("hello",6) = ""`; the enhanced variant satisfies the clamping and
suffix rules but interprets `len <= 0` through Python slice semantics
(see the counterexample). -/
theorem c5_substr_rule (s : PyStr) (start L : Int) (lenOpt : Option Int) :
    (start < 1 → Fixed.substr s start lenOpt = Fixed.substr s 1 lenOpt) ∧
    (1 ≤ start → Fixed.substr s start none = s.drop (start.toNat - 1)) ∧
    (L ≤ 0 → Fixed.substr s start (some L) = []) ∧
    Fixed.substr (("hello").toList) 2 (some 2) = ("el").toList ∧
    Fixed.substr (("hello").toList) 6 none = [] := by
  refine ⟨?_, ?_, ?_, by decide, by decide⟩
  · intro h
    simp only [Fixed.substr]
    rw [max_eq_left (by omega : start ≤ (1 : Int)), max_eq_left (by omega : (1 : Int) ≤ 1)]
  · intro h
    simp only [Fixed.substr]
    rw [max_eq_right h]
    by_cases hgt : start > (s.length : Int)
    · rw [if_pos hgt]
      have : s.length ≤ start.toNat - 1 := by omega
      exact (List.drop_eq_nil_of_le this).symm
    · rw [if_neg hgt]
      have : (start - 1).toNat = start.toNat - 1 := by omega
      rw [this]
  · intro hL
    simp only [Fixed.substr]
    by_cases hgt : max 1 start > (s.length : Int)
    · rw [if_pos hgt]
    · rw [if_neg hgt, if_pos hL]

/-- Claim C5 witness: the rules applied at `substr("hello", 0, 2)`
(clamped to start 1) and `substr("hello", 3)` (suffix). -/
theorem c5_witness :
    Fixed.substr (("hello").toList) 0 (some 2) = Fixed.substr (("hello").toList) 1 (some 2) ∧
      Fixed.substr (("hello").toList) 3 none = (("hello").toList).drop ((3 : Int).toNat - 1) :=
  ⟨(c5_substr_rule (("hello").toList) 0 2 (some 2)).1 (by decide),
    (c5_substr_rule (("hello").toList) 3 2 none).2.1 (by decide)⟩

/-- Claim C6, counterexample.  The claim states `match(s, re)` sets
RSTART to the match position and RLENGTH to the match length (`-1` when
there is no match); in the code `match` is a static method with no access
to the variables — nothing in either variant ever writes RSTART or
RLENGTH after their initialisation to 0.  Here `match("abc", "b")`
returns 2 but the variables are returned unchanged (RSTART stays 0, not
2), and for the unmatched `match("abc", "xyz")` RLENGTH stays 0, not
`-1`. -/
theorem c6_counterexample :
    matchWithEnv initVars (("abc").toList) (("b").toList) = (2, initVars) ∧
      initVars.RSTART = 0 ∧ (0 : Int) ≠ 2 ∧
      (matchWithEnv initVars (("abc").toList) (("xyz").toList)).2.RLENGTH = 0 ∧
      (0 : Int) ≠ -1 := by
  refine ⟨by decide, by decide, by decide, by decide, by decide⟩

/-- Claim C6 (amended): `match(s, re)` returns the 1-indexed start
position of the leftmost match of `re` in `s` (0 when there is no match)
and leaves the interpreter variables — RSTART and RLENGTH included —
unchanged. -/
theorem c6_match_contract (v : AwkVars) (s re : PyStr) :
    (matchWithEnv v s re).2 = v ∧
    (matchWithEnv v s re).1 = matchFn s re ∧
    (matchFn s re = 0 → ∀ j, re.isPrefixOf (s.drop j) = false) ∧
    (∀ k, matchFn s re = k + 1 →
      re.isPrefixOf (s.drop k) = true ∧ ∀ j, j < k → re.isPrefixOf (s.drop j) = false) := by
  refine ⟨rfl, rfl, ?_, ?_⟩
  · intro h0
    rcases hf : findSub re s with _ | i
    · exact findSub_none_spec re s hf
    · exfalso
      simp only [matchFn, hf] at h0
      cases h0
  · intro k hk
    rcases hf : findSub re s with _ | i
    · exfalso
      simp only [matchFn, hf] at hk
      cases hk
    · simp only [matchFn, hf] at hk
      have : i = k := by omega
      subst this
      exact findSub_some_spec re s i hf

/-- Claim C6 witness: the contract applied at `match("abc", "b") = 2`. -/
theorem c6_witness :
    (("b").toList).isPrefixOf ((("abc").toList).drop 1) = true :=
  ((c6_match_contract initVars (("abc").toList) (("b").toList)).2.2.2 1 (by decide)).1

end PyAwk

namespace PyAwk

/-- Claim C7, counterexample.  The claim states the parser tracks brace
depth so a nested brace never terminates a rule early; the fixed
variant's `parse_awk_program` extracts BEGIN blocks with the regex
`BEGIN\s*\x7b([^\x7d]*)\x7d`, whose capture stops at the *first* closing
brace: for `BEGIN \x7bif (x) \x7bprint y\x7d \x7d` the recovered BEGIN
action is the truncated `if (x) \x7bprint y` (and a spurious `\x7d`
pattern rule is produced from the leftovers), not the full nested body. -/
theorem c7_counterexample :
    Fixed.parse_awk_program (("BEGIN \x7bif (x) \x7bprint y\x7d \x7d").toList) =
        [(BEGINkw, ("if (x) \x7bprint y").toList), (("\x7d").toList, [])] ∧
      ("if (x) \x7bprint y").toList ≠ ("if (x) \x7bprint y\x7d").toList := by
  refine ⟨by decide, by decide⟩

/-- Claim C7 (amended): only the enhanced variant's *main* pattern-action
loop tracks brace depth (a rule is closed only when the running brace
count returns to zero, then split at its first `\x7b` and last `\x7d`),
so nested braces in a main action are recovered in full — as they also
are in the fixed variant's special case of a single brace-delimited
action program, which slices between the first `\x7b` and last `\x7d`.
BEGIN/END blocks are extracted in both variants by regexes whose capture
group stops at the first closing brace, so nested braces there truncate
the action (see the counterexample). -/
theorem c7_brace_handling :
    Enhanced.parse_awk_program (("\x7b if (x) \x7b print y \x7d \x7d").toList) =
        [(none, ("if (x) \x7b print y \x7d").toList)] ∧
      Fixed.parse_awk_program (("\x7b if (x) \x7b print y \x7d \x7d").toList) =
        [(([] : PyStr), ("if (x) \x7b print y \x7d").toList)] ∧
      Enhanced.parse_awk_program (("BEGIN \x7ba\x7bb\x7dc\x7d").toList) =
        [(some BEGINkw, ("a\x7bb").toList)] := by
  refine ⟨by decide, by decide, by decide⟩

end PyAwk

namespace PyAwk

/-- Claim C8, counterexample.  The claim states that `ai_sentiment`
always returns a non-empty string; the enhanced variant's `ai_call`
returns any non-`None` provider response verbatim — the empty string
included — and `ai_sentiment` merely lowercases it, so a provider that
successfully returns `""` makes `ai_sentiment` return the empty string
(the simulated fallback is not consulted on this path). -/
theorem c8_counterexample :
    Enhanced.ai_sentiment (some (Except.ok (some ([] : PyStr))))
        (fun p => ("AI-generated response: ").toList ++ p.take 50 ++ ("...").toList)
        (("great").toList) = ([] : PyStr) ∧
      (([] : PyStr)).length = 0 := by
  refine ⟨by decide, by decide⟩

/-- Claim C8 (amended): calls through `ai_call` never raise in either
variant — a provider exception is caught and the simulated fallback is
consulted.  The fixed variant additionally falls back when the provider
returns `None` or an empty string, so its `ai_call` never returns the
empty string and its `ai_sentiment` always returns one of the non-empty
strings `positive`/`negative`/`neutral`.  The enhanced variant falls back
on an exception, an absent provider or a `None` response, but returns a
non-`None` provider response verbatim, empty strings included. -/
theorem c8_ai_fallback (provider : Option (Except Unit (Option PyStr)))
    (sim : PyStr → PyStr) (prompt text s : PyStr) :
    Fixed.ai_call provider prompt ≠ [] ∧
    (Fixed.ai_sentiment provider text = ("positive").toList ∨
      Fixed.ai_sentiment provider text = ("negative").toList ∨
      Fixed.ai_sentiment provider text = ("neutral").toList) ∧
    (provider = none ∨ provider = some (.ok none) ∨ provider = some (.error ()) →
      Enhanced.ai_call provider sim prompt = sim prompt) ∧
    (provider = some (.ok (some s)) → Enhanced.ai_call provider sim prompt = s) := by
  refine ⟨?_, ?_, ?_, ?_⟩
  · have hsim : Fixed.simStub prompt ≠ [] := by
      simp [Fixed.simStub]
    match provider with
    | none => exact hsim
    | some (.error _) => exact hsim
    | some (.ok none) => exact hsim
    | some (.ok (some response)) =>
      show (if response.isEmpty then Fixed.simStub prompt else response) ≠ []
      rcases hre : response.isEmpty with _ | _
      · rw [if_neg Bool.false_ne_true]
        cases response with
        | nil => simp [List.isEmpty] at hre
        | cons a t => simp
      · rw [if_pos rfl]
        exact hsim
  · show Fixed.sentimentDecision _ = _ ∨ Fixed.sentimentDecision _ = _ ∨
      Fixed.sentimentDecision _ = _
    unfold Fixed.sentimentDecision
    by_cases h1 : containsSub (("positive").toList)
        (pyStrip (pyLower (Fixed.ai_call provider (Fixed.sentimentPrompt text)))) = true
    · left
      rw [if_pos h1]
    · by_cases h2 : containsSub (("negative").toList)
          (pyStrip (pyLower (Fixed.ai_call provider (Fixed.sentimentPrompt text)))) = true
      · right; left
        rw [if_neg h1, if_pos h2]
      · right; right
        rw [if_neg h1, if_neg h2]
  · rintro (rfl | rfl | rfl) <;> rfl
  · rintro rfl
    rfl

/-- Claim C8 witness: the fallback applied with no configured provider. -/
theorem c8_witness :
    Enhanced.ai_call none (fun _ => ("simulated").toList) (("hi").toList) =
      ("simulated").toList :=
  (c8_ai_fallback none (fun _ => ("simulated").toList) (("hi").toList) [] []).2.2.1
    (Or.inl rfl)

/-- Claim C9: the fixed variant's `ai_sentiment` normalises whatever
string `ai_call` returned to exactly one of `positive`, `negative`,
`neutral`: `positive` when the lowercased response contains
`"positive"`, else `negative` when it contains `"negative"`, else
`neutral` (the `strip()` the code also applies cannot affect containment
of these whitespace-free words). -/
theorem c9_sentiment_decision (resp : PyStr)
    (provider : Option (Except Unit (Option PyStr))) (text : PyStr) :
    (Fixed.sentimentDecision resp = ("positive").toList ∨
      Fixed.sentimentDecision resp = ("negative").toList ∨
      Fixed.sentimentDecision resp = ("neutral").toList) ∧
    (containsSub (("positive").toList) (pyLower resp) = true →
      Fixed.sentimentDecision resp = ("positive").toList) ∧
    (containsSub (("positive").toList) (pyLower resp) = false →
      containsSub (("negative").toList) (pyLower resp) = true →
      Fixed.sentimentDecision resp = ("negative").toList) ∧
    (containsSub (("positive").toList) (pyLower resp) = false →
      containsSub (("negative").toList) (pyLower resp) = false →
      Fixed.sentimentDecision resp = ("neutral").toList) ∧
    Fixed.ai_sentiment provider text =
      Fixed.sentimentDecision (Fixed.ai_call provider (Fixed.sentimentPrompt text)) := by
  have hpos := containsSub_pyStrip (("positive").toList) (by decide) (by decide) (pyLower resp)
  have hneg := containsSub_pyStrip (("negative").toList) (by decide) (by decide) (pyLower resp)
  refine ⟨?_, ?_, ?_, ?_, rfl⟩
  · unfold Fixed.sentimentDecision
    by_cases h1 : containsSub (("positive").toList) (pyStrip (pyLower resp)) = true
    · left
      rw [if_pos h1]
    · by_cases h2 : containsSub (("negative").toList) (pyStrip (pyLower resp)) = true
      · right; left
        rw [if_neg h1, if_pos h2]
      · right; right
        rw [if_neg h1, if_neg h2]
  · intro h
    unfold Fixed.sentimentDecision
    rw [if_pos (hpos.trans h)]
  · intro h1 h2
    unfold Fixed.sentimentDecision
    rw [if_neg (by rw [hpos, h1]; exact Bool.false_ne_true), if_pos (hneg.trans h2)]
  · intro h1 h2
    unfold Fixed.sentimentDecision
    rw [if_neg (by rw [hpos, h1]; exact Bool.false_ne_true),
        if_neg (by rw [hneg, h2]; exact Bool.false_ne_true)]

/-- Claim C9 witness: the decision rule applied to the response
`"It is Positive."`. -/
theorem c9_witness :
    Fixed.sentimentDecision (("It is Positive.").toList) = ("positive").toList :=
  (c9_sentiment_decision (("It is Positive.").toList) none []).2.1 (by decide)

end PyAwk

namespace PyAwk

/-- Claim C10: in the fixed variant, evaluating a rule's condition never
propagates an exception: whenever the `try` body of
`evaluate_condition` raises (any error from the regex search or from
`eval` of the parsed condition), the method reports the error (the
message in the second component) and returns `False`, so in the
per-record rule loop the offending rule contributes no action execution
while the rules before and after it are processed unchanged. -/
theorem c10_condition_error_handling
    (search : Bool → PyStr → PyStr → Except PyStr Bool)
    (evalPy : PyStr → Except PyStr Bool) (stf : PyStr → Fixed.St)
    (cond e a line : PyStr) (before after : List Rule)
    (herr : Fixed.evalCondBody search evalPy (stf line) cond = .error e) :
    Fixed.evaluate_condition search evalPy (stf line) cond =
        (false, some (Fixed.condErrMsg cond e)) ∧
      recordPhase (fun ln c => (Fixed.evaluate_condition search evalPy (stf ln) c).1) line
          (before ++ (cond, a) :: after) =
        recordPhase (fun ln c => (Fixed.evaluate_condition search evalPy (stf ln) c).1)
            line before ++
          recordPhase (fun ln c => (Fixed.evaluate_condition search evalPy (stf ln) c).1)
            line after := by
  have hcne : cond ≠ [] := by
    rintro rfl
    have hok : Fixed.evalCondBody search evalPy (stf line) [] = .ok false := rfl
    rw [hok] at herr
    cases herr
  have hempty : cond.isEmpty = false := by
    cases cond with
    | nil => exact absurd rfl hcne
    | cons c t => rfl
  have heval : Fixed.evaluate_condition search evalPy (stf line) cond =
      (false, some (Fixed.condErrMsg cond e)) := by
    unfold Fixed.evaluate_condition
    rw [hempty, if_neg Bool.false_ne_true, herr]
  refine ⟨heval, ?_⟩
  rw [recordPhase_append]
  have hcf : (Fixed.evaluate_condition search evalPy (stf line) cond).1 = false := by
    rw [heval]
  have hmid : recordPhase
        (fun ln c => (Fixed.evaluate_condition search evalPy (stf ln) c).1) line
        ((cond, a) :: after) =
      recordPhase (fun ln c => (Fixed.evaluate_condition search evalPy (stf ln) c).1)
        line after := by
    simp only [recordPhase]
    rw [if_neg]
    · simp
    · rintro ⟨-, -, h3⟩
      have h3' : (Fixed.evaluate_condition search evalPy (stf line) cond).1 = true := h3
      rw [hcf] at h3'
      cases h3'
  rw [hmid]

/-- Claim C10 witness: an eval oracle that raises `"boom"` on the
condition `"NR >"` (a Python syntax error at run time) yields `False`
with the error reported. -/
theorem c10_witness :
    Fixed.evaluate_condition (fun _ _ _ => Except.ok false)
        (fun _ => Except.error (("boom").toList))
        { vars := initVars, fields := [], current_line := [] } (("NR >").toList) =
      (false, some (Fixed.condErrMsg (("NR >").toList) (("boom").toList))) :=
  (c10_condition_error_handling (fun _ _ _ => Except.ok false)
    (fun _ => Except.error (("boom").toList))
    (fun _ => { vars := initVars, fields := [], current_line := [] })
    (("NR >").toList) (("boom").toList) (("print").toList) [] [] []
    rfl).1

end PyAwk
